import Mathlib

/-!
Verification of `cli/tsc_config.rs`: the TypeScript configuration
resolution core (generic JSON value, deep merge, compiler-option filter,
configuration resolver).

External collaborators (the comment-tolerant JSON parser, the numeric
parser `serde_json::Number::from_str`, the filesystem, and the iteration
order of Rust's `HashMap`) are modelled as explicit parameters: the
resolver's own logic is translated directly from the source.
-/

set_option maxHeartbeats 1000000

namespace TscConfig

/-- The generic document value (`serde_json::Value`).  Objects are ordered
key/value lists (the `preserve_order` map): keys are unique in every value
the program builds, and insertion order is preserved.  Numbers carry their
numeral text, following the spec's decimal-preserving data model. -/
inductive Value where
  | null
  | bool (b : Bool)
  | num (s : String)
  | str (s : String)
  | arr (xs : List Value)
  | obj (entries : List (String × Value))
deriving Repr

/-- First-match lookup in an object's entry list (`Map::get` /
`Map::entry` on a key that is present). -/
def lookupV (k : String) : List (String × Value) → Option Value
  | [] => none
  | (k', v) :: rest => if k' = k then some v else lookupV k rest

/-- Insert into an ordered map (`Map::insert` of the `preserve_order`
map): an existing key keeps its position and gets the new value, a fresh
key is appended at the end. -/
def objInsert (k : String) (v : Value) : List (String × Value) → List (String × Value)
  | [] => [(k, v)]
  | (k', v') :: rest => if k' = k then (k', v) :: rest else (k', v') :: objInsert k v rest

mutual

/-- `json_merge` from `cli/tsc_config.rs`: when both sides are objects,
every key of `b` is recursively merged into `a`'s entry at that key
(`a.entry(k.clone()).or_insert(Value::Null)` then recurse); in every
other case `a` is replaced by a clone of `b`. -/
def json_merge : Value → Value → Value
  | .obj a, .obj b => .obj (mergeEntries a b)
  | _, b => b

/-- The object branch of `json_merge`: the `for (k, v) in b` loop,
threading the mutated entry list of `a`. -/
def mergeEntries : List (String × Value) → List (String × Value) → List (String × Value)
  | a, [] => a
  | a, (k, v) :: rest =>
      mergeEntries (objInsert k (json_merge ((lookupV k a).getD .null) v) a) rest

end

mutual

/-- Well-formedness of a value as `serde_json::Value` guarantees it: every
object has pairwise-distinct keys.  Every value the Rust program can build
satisfies this (its map type cannot hold duplicate keys). -/
def wfValue : Value → Bool
  | .null => true
  | .bool _ => true
  | .num _ => true
  | .str _ => true
  | .arr xs => wfList xs
  | .obj e => decide ((e.map Prod.fst).Nodup) && wfEntries e

/-- All members of an array are well-formed. -/
def wfList : List Value → Bool
  | [] => true
  | v :: rest => wfValue v && wfList rest

/-- All values of an object are well-formed. -/
def wfEntries : List (String × Value) → Bool
  | [] => true
  | (_, v) :: rest => wfValue v && wfEntries rest

end

/-- The parse tree of the external comment-tolerant JSON parser
(`jsonc_parser::JsonValue`); numbers are kept as their numeral text, as
that library does. -/
inductive JsonValue where
  | array (xs : List JsonValue)
  | boolean (b : Bool)
  | null
  | number (raw : String)
  | object (entries : List (String × JsonValue))
  | string (s : String)
deriving Repr

mutual

/-- `jsonc_to_serde` from `cli/tsc_config.rs`, converting the external
parser's tree into a `Value`.  The external numeric parser
`serde_json::Number::from_str` is abstracted as the predicate `numOk`;
when it rejects a numeral the Rust code panics via
`.expect("could not parse number")`, modelled as the `Except.error`
outcome, which callers surface as a panic. -/
def jsonc_to_serde (numOk : String → Bool) : JsonValue → Except String Value
  | .array arr => do pure (.arr (← jsoncListToSerde numOk arr))
  | .boolean b => pure (.bool b)
  | .null => pure .null
  | .number num =>
      if numOk num then pure (.num num) else .error "could not parse number"
  | .object obj => do pure (.obj (← jsoncObjToSerde numOk [] obj))
  | .string str => pure (.str str)

/-- Conversion of an array's members, in order. -/
def jsoncListToSerde (numOk : String → Bool) : List JsonValue → Except String (List Value)
  | [] => pure []
  | j :: rest => do pure ((← jsonc_to_serde numOk j) :: (← jsoncListToSerde numOk rest))

/-- The object loop of `jsonc_to_serde`: starting from `Map::new()`, each
entry's value is converted and inserted in turn. -/
def jsoncObjToSerde (numOk : String → Bool) (acc : List (String × Value)) :
    List (String × JsonValue) → Except String (List (String × Value))
  | [] => pure acc
  | (key, j) :: rest => do
      jsoncObjToSerde numOk (objInsert key (← jsonc_to_serde numOk j) acc) rest

end

/-- `IGNORED_COMPILER_OPTIONS` from `cli/tsc_config.rs`: the 61 compiler
option names that are filtered out. -/
def IGNORED_COMPILER_OPTIONS : List String := [
  "allowSyntheticDefaultImports",
  "allowUmdGlobalAccess",
  "assumeChangesOnlyAffectDirectDependencies",
  "baseUrl",
  "build",
  "composite",
  "declaration",
  "declarationDir",
  "declarationMap",
  "diagnostics",
  "downlevelIteration",
  "emitBOM",
  "emitDeclarationOnly",
  "esModuleInterop",
  "extendedDiagnostics",
  "forceConsistentCasingInFileNames",
  "generateCpuProfile",
  "help",
  "importHelpers",
  "incremental",
  "inlineSourceMap",
  "inlineSources",
  "init",
  "listEmittedFiles",
  "listFiles",
  "mapRoot",
  "maxNodeModuleJsDepth",
  "module",
  "moduleResolution",
  "newLine",
  "noEmit",
  "noEmitHelpers",
  "noEmitOnError",
  "noLib",
  "noResolve",
  "out",
  "outDir",
  "outFile",
  "paths",
  "preserveConstEnums",
  "preserveSymlinks",
  "preserveWatchOutput",
  "pretty",
  "reactNamespace",
  "resolveJsonModule",
  "rootDir",
  "rootDirs",
  "showConfig",
  "skipDefaultLibCheck",
  "skipLibCheck",
  "sourceMap",
  "sourceRoot",
  "stripInternal",
  "target",
  "traceResolution",
  "tsBuildInfoFile",
  "types",
  "typeRoots",
  "useDefineForClassFields",
  "version",
  "watch"]

/-- The set of options that were ignored together with the path they came
from (`IgnoredCompilerOptions`). -/
structure IgnoredCompilerOptions where
  items : List String
  path : String
deriving Repr, DecidableEq

/-- The filter loop of `parse_config`: each entry whose key is in
`IGNORED_COMPILER_OPTIONS` has its name pushed onto `items`, every other
entry is kept in the output mapping, in iteration order. -/
def filterLoop : List (String × Value) → List (String × Value) × List String
  | [] => ([], [])
  | (key, value) :: rest =>
      let (m, i) := filterLoop rest
      if IGNORED_COMPILER_OPTIONS.contains key then (m, key :: i)
      else ((key, value) :: m, i)

/-- The report construction at the end of `parse_config`: a report exists
exactly when `items` is non-empty. -/
def mkIgnoredOptions (items : List String) (path : String) :
    Option IgnoredCompilerOptions :=
  if items.isEmpty then none else some ⟨items, path⟩

/-- The fixed top-level shape `TSConfigJson` that a user config file is
deserialized into. -/
structure TSConfigJson where
  compiler_options : Option (List (String × Value))
  exclude : Option (List String)
  «extends» : Option String
  files : Option (List String)
  «include» : Option (List String)
  references : Option Value
  type_acquisition : Option Value
deriving Repr

/-- Serde deserialization of `Vec<String>` from a `Value`. -/
def parseStringList : Value → Except String (List String)
  | .arr xs =>
      xs.mapM fun v =>
        match v with
        | .str s => Except.ok s
        | _ => Except.error "invalid type: expected a string"
  | _ => Except.error "invalid type: expected a sequence"

/-- Serde deserialization of an `Option<T>` struct field: a missing key or
a `null` value yields `none`; any other value must deserialize as `T`. -/
def parseOptField {α : Type} (name : String) (entries : List (String × Value))
    (f : Value → Except String α) : Except String (Option α) :=
  match lookupV name entries with
  | none => Except.ok none
  | some .null => Except.ok none
  | some v => (f v).map some

/-- Serde deserialization of `HashMap<String, Value>` from a `Value`:
the value must be a map. -/
def parseOptionsMap (v : Value) : Except String (List (String × Value)) :=
  match v with
  | .obj m => Except.ok m
  | _ => Except.error "invalid type: compilerOptions must be a map"

/-- Serde deserialization of `String` from a `Value`. -/
def parseStringField (v : Value) : Except String String :=
  match v with
  | .str s => Except.ok s
  | _ => Except.error "invalid type: extends must be a string"

/-- Serde deserialization of `Value` from a `Value` (the identity). -/
def parseAnyValue (v : Value) : Except String Value := Except.ok v

/-- Serde deserialization of `TSConfigJson` (camelCase field names,
unknown fields ignored, as serde does by default): the top level must be
an object, and each present known field must have the declared type. -/
def deserializeTSConfigJson (v : Value) : Except String TSConfigJson :=
  match v with
  | .obj entries => do
      let co ← parseOptField "compilerOptions" entries parseOptionsMap
      let ex ← parseOptField "exclude" entries parseStringList
      let et ← parseOptField "extends" entries parseStringField
      let fi ← parseOptField "files" entries parseStringList
      let inc ← parseOptField "include" entries parseStringList
      let re ← parseOptField "references" entries parseAnyValue
      let ta ← parseOptField "typeAcquisition" entries parseAnyValue
      pure ⟨co, ex, et, fi, inc, re, ta⟩
  | _ => Except.error "invalid type: expected struct TSConfigJson"

/-- The error side of `Result<_, AnyError>`. -/
inductive AnyError where
  | parseError (msg : String)
  | ioError (msg : String)
  | serdeError (msg : String)
deriving Repr, DecidableEq

/-- The outcome of running one of the fallible operations: a normal
return value, a returned error, or a process-aborting panic
(`assert!`, `unwrap`, `expect`). -/
inductive RunResult (α : Type) where
  | panic (msg : String)
  | error (e : AnyError)
  | ok (a : α)
deriving Repr

/-- Whether a run aborted the process. -/
def RunResult.isPanic {α : Type} : RunResult α → Bool
  | .panic _ => true
  | _ => false

/-- Message of the `assert!(!config_text.is_empty())` failure. -/
def assertEmptyMsg : String := "assertion failed: !config_text.is_empty()"

/-- Message of `Option::unwrap` on the parser returning no value. -/
def unwrapNoneMsg : String := "called Option::unwrap on a None value"

/-- External inputs of `parse_config`: the success predicate of
`serde_json::Number::from_str`, and the iteration orders of the two
`HashMap`s (`ord1` for the deserialized `compilerOptions` map, `ord2` for
the filtered output map).  Rust's `HashMap` iterates its entries in an
unspecified order, so each order is an arbitrary function; the theorems
assume only that it permutes the entries. -/
structure ExternParams where
  numOk : String → Bool
  ord1 : List (String × Value) → List (String × Value)
  ord2 : List (String × Value) → List (String × Value)

/-- A hash iteration order must list exactly the map's entries. -/
def ValidOrders (p : ExternParams) : Prop :=
  (∀ l, List.Perm (p.ord1 l) l) ∧ (∀ l, List.Perm (p.ord2 l) l)

/-- Identity external parameters (a legal instantiation: the identity is a
permutation). -/
def idParams : ExternParams := ⟨fun _ => true, id, id⟩

/-- `parse_raw_config` from `cli/tsc_config.rs`.  `parsed` is the result
of the external call `jsonc_parser::parse_to_value(config_text)`, passed
in as a parameter: `Except.error` is a parse error (propagated with `?`),
`Except.ok none` means the text held no value (the code calls `.unwrap()`
on it, a panic). -/
def parse_raw_config (numOk : String → Bool) (config_text : String)
    (parsed : Except String (Option JsonValue)) : RunResult Value :=
  if config_text = "" then .panic assertEmptyMsg
  else
    match parsed with
    | .error e => .error (.parseError e)
    | .ok none => .panic unwrapNoneMsg
    | .ok (some jsonc) =>
        match jsonc_to_serde numOk jsonc with
        | .error m => .panic m
        | .ok v => .ok v

/-- `parse_config` from `cli/tsc_config.rs`: assert the text non-empty,
parse it, deserialize into `TSConfigJson`, filter `compilerOptions`
through `IGNORED_COMPILER_OPTIONS`, and return the filtered mapping as a
`Value` together with the optional ignored-options report. -/
def parse_config (p : ExternParams) (config_text : String)
    (parsed : Except String (Option JsonValue)) (path : String) :
    RunResult (Value × Option IgnoredCompilerOptions) :=
  if config_text = "" then .panic assertEmptyMsg
  else
    match parsed with
    | .error e => .error (.parseError e)
    | .ok none => .panic unwrapNoneMsg
    | .ok (some jsonc) =>
        match jsonc_to_serde p.numOk jsonc with
        | .error m => .panic m
        | .ok v =>
            match deserializeTSConfigJson v with
            | .error e => .error (.serdeError e)
            | .ok config =>
                let (kept, items) :=
                  match config.compiler_options with
                  | some m => filterLoop (p.ord1 m)
                  | none => ([], [])
                .ok (.obj (p.ord2 kept), mkIgnoredOptions items path)

/-- The typed transpile projection (`TranspileConfigOptions`). -/
structure TranspileConfigOptions where
  check_js : Bool
  emit_decorator_metadata : Bool
  jsx : String
  jsx_factory : String
  jsx_fragment_factory : String
deriving Repr, DecidableEq

/-- The configuration resolver `TsConfig`, wrapping one `Value`. -/
structure TsConfig where
  val : Value
deriving Repr

/-- `TsConfig::new`. -/
def TsConfig.new (value : Value) : TsConfig := ⟨value⟩

/-- The `Serialize` implementation of `TsConfig`: it serializes exactly
the inner value, so the serialized form is the held `Value` itself. -/
def TsConfig.serialize (cfg : TsConfig) : Value := cfg.val

/-- `Path::join` on the model where paths are strings: an absolute path
replaces the base. -/
def pathJoin (base p : String) : String :=
  if p.startsWith "/" then p else base ++ "/" ++ p

/-- The filesystem environment `merge_user_config` interacts with:
`std::env::current_dir`, `Path::canonicalize` (its error is discarded by
the code, so only success or failure matters), `std::fs::read_to_string`,
and the external comment-tolerant parser applied to the text read. -/
structure FsEnv where
  current_dir : Except String String
  canonicalize : String → Option String
  read_to_string : String → Except String String
  parse_to_value : String → Except String (Option JsonValue)

/-- `TsConfig::merge_user_config`: with no path, return no report and
leave the value alone; otherwise resolve the path against the current
directory, canonicalize it (failure becomes the error
`Could not find the config file: <joined path>`), read the file, run
`parse_config`, and merge the filtered options value into the held value.
State passing is explicit: the second component is the resolver's value
after the call. -/
def TsConfig.merge_user_config (env : FsEnv) (p : ExternParams) (cfg : TsConfig)
    (maybe_path : Option String) :
    RunResult (Option IgnoredCompilerOptions) × TsConfig :=
  match maybe_path with
  | some path =>
      match env.current_dir with
      | .error e => (.error (.ioError e), cfg)
      | .ok cwd =>
          let config_file := pathJoin cwd path
          match env.canonicalize config_file with
          | none =>
              (.error (.ioError ("Could not find the config file: " ++ config_file)), cfg)
          | some config_path =>
              match env.read_to_string config_path with
              | .error e => (.error (.ioError e), cfg)
              | .ok config_text =>
                  match parse_config p config_text (env.parse_to_value config_text)
                      config_path with
                  | .panic m => (.panic m, cfg)
                  | .error e => (.error e, cfg)
                  | .ok (value, maybe_ignored) =>
                      (.ok maybe_ignored, ⟨json_merge cfg.val value⟩)
  | none => (.ok none, cfg)

/-- Serde extraction of a required `bool` struct field: the key must be
present with a boolean value. -/
def getBoolField (name : String) (entries : List (String × Value)) :
    Except String Bool :=
  match lookupV name entries with
  | some (.bool b) => Except.ok b
  | _ => Except.error ("invalid field " ++ name)

/-- Serde extraction of a required `String` struct field: the key must be
present with a string value. -/
def getStrField (name : String) (entries : List (String × Value)) :
    Except String String :=
  match lookupV name entries with
  | some (.str s) => Except.ok s
  | _ => Except.error ("invalid field " ++ name)

/-- `TsConfig::as_transpile_config`: serde deserialization of the held
value into `TranspileConfigOptions` — the value must be an object holding
all five camelCase fields with the right types (extra fields are ignored,
as serde does by default). -/
def TsConfig.as_transpile_config (cfg : TsConfig) :
    Except String TranspileConfigOptions :=
  match cfg.val with
  | .obj entries => do
      let check_js ← getBoolField "checkJs" entries
      let emit_decorator_metadata ← getBoolField "emitDecoratorMetadata" entries
      let jsx ← getStrField "jsx" entries
      let jsx_factory ← getStrField "jsxFactory" entries
      let jsx_fragment_factory ← getStrField "jsxFragmentFactory" entries
      pure ⟨check_js, emit_decorator_metadata, jsx, jsx_factory, jsx_fragment_factory⟩
  | _ => Except.error "invalid type: expected struct TranspileConfigOptions"

/-- Whether a value is an object. -/
def Value.isObj : Value → Bool
  | .obj _ => true
  | _ => false

/-- Base configuration of the clean-merge scenario:
`TsConfig::new` on the object holding one `compilerOptions` entry. -/
def cleanMergeBase : TsConfig :=
  TsConfig.new (.obj [("compilerOptions", .obj [("strict", .bool true)])])

/-- Text of the user config file in the clean-merge scenario. -/
def cleanMergeText : String :=
  "\x7b\"compilerOptions\":\x7b\"build\":true,\"strict\":true\x7d\x7d"

/-- Parse tree the external parser produces for `cleanMergeText`. -/
def cleanMergeJsonc : JsonValue :=
  .object [("compilerOptions",
    .object [("build", .boolean true), ("strict", .boolean true)])]

/-- Filesystem environment of the clean-merge scenario: the working
directory is the root, canonicalization succeeds on the joined path, and
reading it yields `cleanMergeText`. -/
def cleanMergeEnv : FsEnv where
  current_dir := Except.ok ""
  canonicalize := fun _ => some "/tsconfig.json"
  read_to_string := fun _ => Except.ok cleanMergeText
  parse_to_value := fun _ => Except.ok (some cleanMergeJsonc)

/-- Text of the key-order demonstration config file. -/
def orderDemoText : String :=
  "\x7b\"compilerOptions\":\x7b\"alpha\":1,\"beta\":2\x7d\x7d"

/-- Parse tree of `orderDemoText`: two non-ignored compiler options whose
source insertion order is `alpha` then `beta`. -/
def orderDemoJsonc : JsonValue :=
  .object [("compilerOptions",
    .object [("alpha", .number "1"), ("beta", .number "2")])]

/-- External parameters whose output hash map iterates in reversed
order — a legal `HashMap` iteration order, since reversal is a
permutation. -/
def orderRevParams : ExternParams :=
  ⟨fun _ => true, id, List.reverse⟩

/-- Filesystem environment of the missing-file scenario: canonicalization
fails on every path. -/
def missingFileEnv : FsEnv where
  current_dir := Except.ok ""
  canonicalize := fun _ => none
  read_to_string := fun _ => Except.error "unreachable"
  parse_to_value := fun _ => Except.ok none

theorem lookupV_objInsert (a k : String) (v : Value) (l : List (String × Value)) :
    lookupV a (objInsert k v l) = if k = a then some v else lookupV a l := by
  induction l with
  | nil => simp [objInsert, lookupV]
  | cons hd tl ih =>
      obtain ⟨k', v'⟩ := hd
      simp only [objInsert]
      by_cases hk : k' = k
      · subst hk
        simp only [if_pos rfl, lookupV]
        by_cases ha : k' = a
        · simp [ha]
        · simp [ha]
      · simp only [if_neg hk, lookupV, ih]
        by_cases ha : k' = a
        · subst ha
          have hka : ¬(k = k') := fun h => hk h.symm
          simp [hka]
        · simp [ha]

theorem lookupV_eq_none (k : String) (l : List (String × Value)) :
    lookupV k l = none ↔ k ∉ l.map Prod.fst := by
  induction l with
  | nil => simp [lookupV]
  | cons hd tl ih =>
      obtain ⟨k', v'⟩ := hd
      by_cases h : k' = k
      · subst h; simp [lookupV]
      · simp [lookupV, h, ih, Ne.symm h]

theorem lookupV_mem {k : String} {v : Value} {l : List (String × Value)}
    (h : lookupV k l = some v) : (k, v) ∈ l := by
  induction l with
  | nil => simp [lookupV] at h
  | cons hd tl ih =>
      obtain ⟨k', v'⟩ := hd
      by_cases hk : k' = k
      · subst hk
        simp [lookupV] at h
        subst h
        simp
      · simp only [lookupV, if_neg hk] at h
        exact List.mem_cons_of_mem _ (ih h)

theorem nodup_lookupV {k : String} {v : Value} {l : List (String × Value)}
    (hnd : (l.map Prod.fst).Nodup) (h : (k, v) ∈ l) : lookupV k l = some v := by
  induction l with
  | nil => simp at h
  | cons hd tl ih =>
      obtain ⟨k', v'⟩ := hd
      simp only [List.map_cons, List.nodup_cons] at hnd
      rcases List.mem_cons.mp h with heq | hmem
      · obtain ⟨hk, hv⟩ := Prod.mk.injEq .. ▸ heq
        subst hk; subst hv
        simp [lookupV]
      · have hk : k' ≠ k := by
          rintro rfl
          exact hnd.1 (List.mem_map.mpr ⟨(k', v), hmem, rfl⟩)
        simp only [lookupV, if_neg hk]
        exact ih hnd.2 hmem

theorem objInsert_self {k : String} {v : Value} {l : List (String × Value)}
    (h : lookupV k l = some v) : objInsert k v l = l := by
  induction l with
  | nil => simp [lookupV] at h
  | cons hd tl ih =>
      obtain ⟨k', v'⟩ := hd
      by_cases hk : k' = k
      · subst hk
        simp [lookupV] at h
        subst h
        simp [objInsert]
      · simp only [lookupV, if_neg hk] at h
        simp [objInsert, hk, ih h]

theorem mergeEntries_lookup_not_mem {k : String} {b : List (String × Value)}
    (hk : k ∉ b.map Prod.fst) (a : List (String × Value)) :
    lookupV k (mergeEntries a b) = lookupV k a := by
  induction b generalizing a with
  | nil => simp [mergeEntries]
  | cons hd tl ih =>
      obtain ⟨k', v'⟩ := hd
      simp only [List.map_cons, List.mem_cons] at hk
      push_neg at hk
      rw [mergeEntries, ih hk.2, lookupV_objInsert, if_neg (Ne.symm hk.1)]

theorem mergeEntries_lookup_mem {k : String} {v : Value} {b : List (String × Value)}
    (hnd : (b.map Prod.fst).Nodup) (hmem : (k, v) ∈ b) (a : List (String × Value)) :
    lookupV k (mergeEntries a b) =
      some (json_merge ((lookupV k a).getD .null) v) := by
  induction b generalizing a with
  | nil => simp at hmem
  | cons hd tl ih =>
      obtain ⟨k', v'⟩ := hd
      simp only [List.map_cons, List.nodup_cons] at hnd
      rcases List.mem_cons.mp hmem with heq | hmem'
      · injection heq with h1 h2
        subst h1
        subst h2
        have hnotin : k ∉ tl.map Prod.fst := hnd.1
        rw [mergeEntries, mergeEntries_lookup_not_mem hnotin,
          lookupV_objInsert, if_pos rfl]
      · have hk : k' ≠ k := by
          rintro rfl
          exact hnd.1 (List.mem_map.mpr ⟨(k', v), hmem', rfl⟩)
        rw [mergeEntries, ih hnd.2 hmem', lookupV_objInsert, if_neg hk]

/-- **C1.** When both sides are objects, `json_merge` runs the per-key
loop over `from`'s entries: a key absent from `from` keeps its value from
`into`, and each key of `from` ends up bound to the recursive merge of
`into`'s entry at that key (a `Null` placeholder when the key was absent)
with `from`'s value; in particular merging `a: (x: 1)` with `a: (y: 2)`
yields `a: (x: 1, y: 2)`. -/
theorem json_merge_object_spec (a b : List (String × Value))
    (hnd : (b.map Prod.fst).Nodup) :
    json_merge (.obj a) (.obj b) = .obj (mergeEntries a b) ∧
    (∀ k, k ∉ b.map Prod.fst →
      lookupV k (mergeEntries a b) = lookupV k a) ∧
    (∀ k v, (k, v) ∈ b →
      lookupV k (mergeEntries a b) =
        some (json_merge ((lookupV k a).getD .null) v)) ∧
    json_merge (.obj [("a", .obj [("x", .num "1")])])
        (.obj [("a", .obj [("y", .num "2")])]) =
      .obj [("a", .obj [("x", .num "1"), ("y", .num "2")])] := by
  refine ⟨rfl, fun k hk => mergeEntries_lookup_not_mem hk a,
    fun k v hv => mergeEntries_lookup_mem hnd hv a, rfl⟩

/-- Witness for C1 at concrete input: merging `x: 1` with `y: 2`. -/
theorem json_merge_object_spec_witness :
    ((([("y", TscConfig.Value.num "2")]).map Prod.fst).Nodup) ∧
    lookupV "x" (mergeEntries [("x", .num "1")] [("y", .num "2")]) =
      some (.num "1") := by
  refine ⟨by simp, ?_⟩
  exact (json_merge_object_spec [("x", .num "1")] [("y", .num "2")]
    (by simp)).2.1 "x" (by simp)

/-- **C5.** When `into` and `from` are not both objects (type mismatch, or
either side is a scalar or an array), `json_merge` replaces `into`
entirely by a copy of `from`; in particular arrays are replaced wholesale,
so merging `a: [1, 2]` with `a: [3]` yields `a: [3]`. -/
theorem json_merge_replace_spec (a b : Value)
    (h : a.isObj = false ∨ b.isObj = false) :
    json_merge a b = b ∧
    json_merge (.obj [("a", .arr [.num "1", .num "2"])])
        (.obj [("a", .arr [.num "3"])]) =
      .obj [("a", .arr [.num "3"])] := by
  refine ⟨?_, rfl⟩
  cases a <;> cases b <;> first
    | rfl
    | simp [Value.isObj] at h

/-- Witness for C5 at concrete input: an array is replaced by `null`. -/
theorem json_merge_replace_spec_witness :
    ((Value.arr []).isObj = false ∨ (Value.null).isObj = false) ∧
    json_merge (.arr []) .null = .null :=
  ⟨Or.inl rfl, (json_merge_replace_spec (.arr []) .null (Or.inl rfl)).1⟩

theorem wfEntries_mem {e : List (String × Value)} {k : String} {v : Value}
    (hwf : wfEntries e = true) (h : (k, v) ∈ e) : wfValue v = true := by
  induction e with
  | nil => simp at h
  | cons hd tl ih =>
      obtain ⟨k', v'⟩ := hd
      simp only [wfEntries, Bool.and_eq_true] at hwf
      rcases List.mem_cons.mp h with heq | hmem
      · injection heq with h1 h2
        subst h2
        exact hwf.1
      · exact ih hwf.2 hmem

theorem mergeEntries_fix {a : List (String × Value)} :
    ∀ {b : List (String × Value)},
      (∀ kv ∈ b, lookupV kv.1 a = some kv.2 ∧ json_merge kv.2 kv.2 = kv.2) →
      mergeEntries a b = a := by
  intro b
  induction b with
  | nil => intro _; rw [mergeEntries]
  | cons hd tl ih =>
      intro h
      obtain ⟨k, v⟩ := hd
      have h1 := h (k, v) (List.mem_cons_self _ _)
      simp only [mergeEntries]
      have heq : objInsert k (json_merge ((lookupV k a).getD Value.null) v) a = a := by
        rw [h1.1, Option.getD_some, h1.2]
        exact objInsert_self h1.1
      rw [heq]
      exact ih fun kv hkv => h kv (List.mem_cons_of_mem _ hkv)

/-- **C10.** `json_merge` is idempotent on equal operands: merging a
well-formed value into itself leaves it unchanged.  (Well-formedness —
objects never hold duplicate keys — is an invariant of the Rust map type,
so every value the program builds satisfies it.) -/
theorem json_merge_idempotent : ∀ (v : Value), wfValue v = true → json_merge v v = v
  | .null, _ => rfl
  | .bool _, _ => rfl
  | .num _, _ => rfl
  | .str _, _ => rfl
  | .arr _, _ => rfl
  | .obj e, h => by
      simp only [wfValue, Bool.and_eq_true, decide_eq_true_eq] at h
      simp only [json_merge]
      congr 1
      exact mergeEntries_fix fun ⟨k, v⟩ hkv =>
        ⟨nodup_lookupV h.1 hkv,
          json_merge_idempotent v (wfEntries_mem h.2 hkv)⟩
termination_by v => sizeOf v
decreasing_by
  have hlt := List.sizeOf_lt_of_mem hkv
  simp only [Prod.mk.sizeOf_spec] at hlt
  simp only [Value.obj.sizeOf_spec]
  omega

/-- Witness for C10 at concrete input: a one-key object. -/
theorem json_merge_idempotent_witness :
    wfValue (Value.obj [("a", .bool true)]) = true ∧
    json_merge (.obj [("a", .bool true)]) (.obj [("a", .bool true)]) =
      .obj [("a", .bool true)] :=
  ⟨rfl, json_merge_idempotent _ rfl⟩

theorem filterLoop_eq (l : List (String × Value)) :
    filterLoop l =
      (l.filter fun kv => !(IGNORED_COMPILER_OPTIONS.contains kv.1),
       (l.filter fun kv => IGNORED_COMPILER_OPTIONS.contains kv.1).map Prod.fst) := by
  induction l with
  | nil => rfl
  | cons hd tl ih =>
      obtain ⟨k, v⟩ := hd
      simp only [filterLoop, ih, List.filter_cons]
      by_cases h : k ∈ IGNORED_COMPILER_OPTIONS
      · simp [h]
      · simp [h]

/-- **C2.** Filter completeness of `parse_config`'s compiler-option loop:
the kept keys and the ignored names together are exactly the input keys
and are disjoint; ignored names all come from
`IGNORED_COMPILER_OPTIONS`; no kept key is in it; the ignored list is
empty exactly when no input key matched; and the report built from the
items is present exactly when the ignored list is non-empty. -/
theorem filter_completeness (entries : List (String × Value)) :
    (∀ k, (k ∈ (filterLoop entries).1.map Prod.fst ∨ k ∈ (filterLoop entries).2) ↔
       k ∈ entries.map Prod.fst) ∧
    (∀ k, k ∈ (filterLoop entries).1.map Prod.fst → k ∉ (filterLoop entries).2) ∧
    (∀ k ∈ (filterLoop entries).2, k ∈ IGNORED_COMPILER_OPTIONS) ∧
    (∀ k ∈ (filterLoop entries).1.map Prod.fst, k ∉ IGNORED_COMPILER_OPTIONS) ∧
    ((filterLoop entries).2 = [] ↔
       ∀ k ∈ entries.map Prod.fst, k ∉ IGNORED_COMPILER_OPTIONS) ∧
    (∀ items path, (mkIgnoredOptions items path).isSome = true ↔ items ≠ []) := by
  rw [filterLoop_eq]
  refine ⟨?_, ?_, ?_, ?_, ?_, ?_⟩
  · intro k
    constructor
    · rintro (hk | hk)
      · obtain ⟨x, hx, hx1⟩ := List.mem_map.mp hk
        exact List.mem_map.mpr ⟨x, (List.mem_filter.mp hx).1, hx1⟩
      · obtain ⟨x, hx, hx1⟩ := List.mem_map.mp hk
        exact List.mem_map.mpr ⟨x, (List.mem_filter.mp hx).1, hx1⟩
    · intro hk
      obtain ⟨x, hxl, hx1⟩ := List.mem_map.mp hk
      by_cases hc : x.1 ∈ IGNORED_COMPILER_OPTIONS
      · exact Or.inr (List.mem_map.mpr
          ⟨x, List.mem_filter.mpr ⟨hxl, by simp [hc]⟩, hx1⟩)
      · exact Or.inl (List.mem_map.mpr
          ⟨x, List.mem_filter.mpr ⟨hxl, by simp [hc]⟩, hx1⟩)
  · intro k hk hmem
    obtain ⟨x, hx, hx1⟩ := List.mem_map.mp hk
    obtain ⟨y, hy, hy1⟩ := List.mem_map.mp hmem
    have hxc := (List.mem_filter.mp hx).2
    have hyc := (List.mem_filter.mp hy).2
    rw [hx1] at hxc
    rw [hy1] at hyc
    have hxn : k ∉ IGNORED_COMPILER_OPTIONS := by simpa using hxc
    have hyn : k ∈ IGNORED_COMPILER_OPTIONS := by simpa using hyc
    exact hxn hyn
  · intro k hk
    obtain ⟨x, hx, hx1⟩ := List.mem_map.mp hk
    have hxc := (List.mem_filter.mp hx).2
    rw [hx1] at hxc
    simpa using hxc
  · intro k hk hmem
    obtain ⟨x, hx, hx1⟩ := List.mem_map.mp hk
    have hxc := (List.mem_filter.mp hx).2
    rw [hx1] at hxc
    have hxn : k ∉ IGNORED_COMPILER_OPTIONS := by simpa using hxc
    exact hxn hmem
  · rw [List.map_eq_nil_iff, List.filter_eq_nil_iff]
    constructor
    · intro h k hk hmem
      obtain ⟨x, hxl, hx1⟩ := List.mem_map.mp hk
      exact h x hxl (by rw [hx1]; exact List.elem_iff.mpr hmem)
    · intro h x hxl hc
      exact h x.1 (List.mem_map.mpr ⟨x, hxl, rfl⟩) (List.elem_iff.mp hc)
  · intro items path
    cases items <;> simp [mkIgnoredOptions]

/-- **C3, counterexample.** The claim that no input to the public
operations aborts the process is false at a concrete input:
`parse_raw_config` on empty config text fires
`assert!(!config_text.is_empty())` and panics, whatever the external
parser would have returned. -/
theorem parse_raw_config_panics_on_empty :
    (parse_raw_config (fun _ => true) "" (Except.ok (some .null))).isPanic = true := rfl

/-- **C3, amended.** The public operations abort the process only on the
three explicit panic sites: empty config text (the `assert!`), a parser
result holding no value (the `.unwrap()`), and a numeral rejected by the
numeric parser (the `.expect`); `merge_user_config` panics exactly when
the `parse_config` call it makes does, and every other failure is
returned to the caller as an error value. -/
theorem panic_characterization :
    (∀ numOk text parsed, (parse_raw_config numOk text parsed).isPanic = true ↔
      (text = "" ∨ parsed = Except.ok none ∨
        ∃ j m, parsed = Except.ok (some j) ∧
          jsonc_to_serde numOk j = Except.error m)) ∧
    (∀ p text parsed path,
      (parse_config p text parsed path).isPanic = true ↔
      (text = "" ∨ parsed = Except.ok none ∨
        ∃ j m, parsed = Except.ok (some j) ∧
          jsonc_to_serde p.numOk j = Except.error m)) ∧
    (∀ env p cfg mp,
      (TsConfig.merge_user_config env p cfg mp).1.isPanic = true ↔
      ∃ path cwd cpath text, mp = some path ∧ env.current_dir = Except.ok cwd ∧
        env.canonicalize (pathJoin cwd path) = some cpath ∧
        env.read_to_string cpath = Except.ok text ∧
        (parse_config p text (env.parse_to_value text) cpath).isPanic = true) := by
  refine ⟨?_, ?_, ?_⟩
  · intro numOk text parsed
    by_cases ht : text = ""
    · simp [parse_raw_config, ht, RunResult.isPanic]
    · rcases parsed with e | mo
      · simp [parse_raw_config, ht, RunResult.isPanic]
      · rcases mo with _ | j
        · simp [parse_raw_config, ht, RunResult.isPanic]
        · rcases h : jsonc_to_serde numOk j with m | v <;>
            simp [parse_raw_config, ht, RunResult.isPanic, h]
  · intro p text parsed path
    by_cases ht : text = ""
    · simp [parse_config, ht, RunResult.isPanic]
    · rcases parsed with e | mo
      · simp [parse_config, ht, RunResult.isPanic]
      · rcases mo with _ | j
        · simp [parse_config, ht, RunResult.isPanic]
        · rcases h : jsonc_to_serde p.numOk j with m | v
          · simp [parse_config, ht, RunResult.isPanic, h]
          · rcases hd : deserializeTSConfigJson v with e | config <;>
              simp [parse_config, ht, RunResult.isPanic, h, hd]
  · intro env p cfg mp
    rcases mp with _ | path
    · simp [TsConfig.merge_user_config, RunResult.isPanic]
    · rcases hcd : env.current_dir with e | cwd
      · simp [TsConfig.merge_user_config, hcd, RunResult.isPanic]
      · rcases hca : env.canonicalize (pathJoin cwd path) with _ | cpath
        · simp [TsConfig.merge_user_config, hcd, hca, RunResult.isPanic]
        · rcases hrd : env.read_to_string cpath with e | text
          · simp [TsConfig.merge_user_config, hcd, hca, hrd, RunResult.isPanic]
          · rcases hpc : parse_config p text (env.parse_to_value text) cpath
              with m | e | vp
            · simp [TsConfig.merge_user_config, hcd, hca, hrd, hpc,
                RunResult.isPanic]
            · simp [TsConfig.merge_user_config, hcd, hca, hrd, hpc,
                RunResult.isPanic]
            · obtain ⟨v, rep⟩ := vp
              simp [TsConfig.merge_user_config, hcd, hca, hrd, hpc,
                RunResult.isPanic]

/-- **C4.** A canonicalization failure in `merge_user_config` returns the
error `Could not find the config file: <joined path>` and leaves the held
configuration value unchanged; more generally every returned error
(current-directory, canonicalization, read, or parse failure) leaves the
held configuration value unchanged. -/
theorem merge_user_config_error_spec :
    (∀ env p cfg path cwd, env.current_dir = Except.ok cwd →
      env.canonicalize (pathJoin cwd path) = none →
      TsConfig.merge_user_config env p cfg (some path) =
        (.error (.ioError ("Could not find the config file: " ++ pathJoin cwd path)),
          cfg)) ∧
    (∀ env p cfg mp e,
      (TsConfig.merge_user_config env p cfg mp).1 = RunResult.error e →
      (TsConfig.merge_user_config env p cfg mp).2 = cfg) := by
  constructor
  · intro env p cfg path cwd h1 h2
    simp [TsConfig.merge_user_config, h1, h2]
  · intro env p cfg mp e
    rcases mp with _ | path
    · simp [TsConfig.merge_user_config]
    · rcases hcd : env.current_dir with e' | cwd
      · simp [TsConfig.merge_user_config, hcd]
      · rcases hca : env.canonicalize (pathJoin cwd path) with _ | cpath
        · simp [TsConfig.merge_user_config, hcd, hca]
        · rcases hrd : env.read_to_string cpath with e' | text
          · simp [TsConfig.merge_user_config, hcd, hca, hrd]
          · rcases hpc : parse_config p text (env.parse_to_value text) cpath
              with m | e' | vp
            · simp [TsConfig.merge_user_config, hcd, hca, hrd, hpc]
            · simp [TsConfig.merge_user_config, hcd, hca, hrd, hpc]
            · obtain ⟨v, rep⟩ := vp
              simp [TsConfig.merge_user_config, hcd, hca, hrd, hpc]

/-- Witness for C4 at the missing-file scenario:
`maybe_path = some "does/not/exist.json"` with failing canonicalization
yields the path-resolution error naming the attempted path and leaves the
base configuration unchanged. -/
theorem merge_user_config_error_spec_witness :
    missingFileEnv.current_dir = Except.ok "" ∧
    missingFileEnv.canonicalize (pathJoin "" "does/not/exist.json") = none ∧
    TsConfig.merge_user_config missingFileEnv idParams cleanMergeBase
        (some "does/not/exist.json") =
      (.error (.ioError ("Could not find the config file: " ++
          pathJoin "" "does/not/exist.json")),
        cleanMergeBase) :=
  ⟨rfl, rfl, merge_user_config_error_spec.1 missingFileEnv idParams cleanMergeBase
    "does/not/exist.json" "" rfl rfl⟩

theorem getBoolField_ok_iff (name : String) (entries : List (String × Value))
    (b : Bool) :
    getBoolField name entries = Except.ok b ↔
      lookupV name entries = some (.bool b) := by
  unfold getBoolField
  rcases h : lookupV name entries with _ | v
  · simp
  · cases v <;> simp

theorem getStrField_ok_iff (name : String) (entries : List (String × Value))
    (s : String) :
    getStrField name entries = Except.ok s ↔
      lookupV name entries = some (.str s) := by
  unfold getStrField
  rcases h : lookupV name entries with _ | v
  · simp
  · cases v <;> simp

theorem except_error_bind {α β : Type} (e : String) (f : α → Except String β) :
    ((Except.error e : Except String α) >>= f) = Except.error e := rfl

theorem except_ok_bind {α β : Type} (a : α) (f : α → Except String β) :
    ((Except.ok a : Except String α) >>= f) = f a := rfl

/-- **C8.** `as_transpile_config` is a pure projection of the resolver
state (in this embedding it is a function of the held value alone, and it
returns no new state, so repeated calls observe the same state).  It
succeeds with exactly the five projected field values when the held value
is an object holding all five required fields with the right types, and
returns an error precisely otherwise (field absent, field of the wrong
type, or the held value not an object). -/
theorem as_transpile_config_spec (cfg : TsConfig) :
    (∀ t, cfg.as_transpile_config = Except.ok t ↔
      ∃ entries, cfg.val = Value.obj entries ∧
        lookupV "checkJs" entries = some (.bool t.check_js) ∧
        lookupV "emitDecoratorMetadata" entries =
          some (.bool t.emit_decorator_metadata) ∧
        lookupV "jsx" entries = some (.str t.jsx) ∧
        lookupV "jsxFactory" entries = some (.str t.jsx_factory) ∧
        lookupV "jsxFragmentFactory" entries =
          some (.str t.jsx_fragment_factory)) ∧
    ((∃ e, cfg.as_transpile_config = Except.error e) ↔
      ¬ ∃ entries cj edm j jf jff, cfg.val = Value.obj entries ∧
        lookupV "checkJs" entries = some (.bool cj) ∧
        lookupV "emitDecoratorMetadata" entries = some (.bool edm) ∧
        lookupV "jsx" entries = some (.str j) ∧
        lookupV "jsxFactory" entries = some (.str jf) ∧
        lookupV "jsxFragmentFactory" entries = some (.str jff)) := by
  obtain ⟨val⟩ := cfg
  have hmain : ∀ t, TsConfig.as_transpile_config ⟨val⟩ = Except.ok t ↔
      ∃ entries, val = Value.obj entries ∧
        lookupV "checkJs" entries = some (.bool t.check_js) ∧
        lookupV "emitDecoratorMetadata" entries =
          some (.bool t.emit_decorator_metadata) ∧
        lookupV "jsx" entries = some (.str t.jsx) ∧
        lookupV "jsxFactory" entries = some (.str t.jsx_factory) ∧
        lookupV "jsxFragmentFactory" entries =
          some (.str t.jsx_fragment_factory) := by
    intro t
    obtain ⟨tc, te, tj, tf, tg⟩ := t
    cases val with
    | obj entries =>
        simp only [TsConfig.as_transpile_config, Value.obj.injEq,
          exists_eq_left']
        rcases h1 : getBoolField "checkJs" entries with e1 | b1
        · simp only [h1, except_error_bind]
          constructor
          · intro h; cases h
          · rintro ⟨hl1, -⟩
            rw [← getBoolField_ok_iff] at hl1
            rw [hl1] at h1
            cases h1
        · rcases h2 : getBoolField "emitDecoratorMetadata" entries with e2 | b2
          · simp only [h1, h2, except_ok_bind, except_error_bind]
            constructor
            · intro h; cases h
            · rintro ⟨-, hl2, -⟩
              rw [← getBoolField_ok_iff] at hl2
              rw [hl2] at h2
              cases h2
          · rcases h3 : getStrField "jsx" entries with e3 | s3
            · simp only [h1, h2, h3, except_ok_bind, except_error_bind]
              constructor
              · intro h; cases h
              · rintro ⟨-, -, hl3, -⟩
                rw [← getStrField_ok_iff] at hl3
                rw [hl3] at h3
                cases h3
            · rcases h4 : getStrField "jsxFactory" entries with e4 | s4
              · simp only [h1, h2, h3, h4, except_ok_bind, except_error_bind]
                constructor
                · intro h; cases h
                · rintro ⟨-, -, -, hl4, -⟩
                  rw [← getStrField_ok_iff] at hl4
                  rw [hl4] at h4
                  cases h4
              · rcases h5 : getStrField "jsxFragmentFactory" entries with e5 | s5
                · simp only [h1, h2, h3, h4, h5, except_ok_bind, except_error_bind]
                  constructor
                  · intro h; cases h
                  · rintro ⟨-, -, -, -, hl5⟩
                    rw [← getStrField_ok_iff] at hl5
                    rw [hl5] at h5
                    cases h5
                · simp only [h1, h2, h3, h4, h5, except_ok_bind]
                  rw [getBoolField_ok_iff] at h1 h2
                  rw [getStrField_ok_iff] at h3 h4 h5
                  simp only [h1, h2, h3, h4, h5, Except.ok.injEq,
                    TranspileConfigOptions.mk.injEq, Option.some.injEq,
                    Value.bool.injEq, Value.str.injEq]
                  constructor
                  · rintro ⟨a1, a2, a3, a4, a5⟩
                    simp_all
                  · rintro ⟨a1, a2, a3, a4, a5⟩
                    subst_vars
                    rfl
    | null => simp [TsConfig.as_transpile_config]
    | bool b => simp [TsConfig.as_transpile_config]
    | num s => simp [TsConfig.as_transpile_config]
    | str s => simp [TsConfig.as_transpile_config]
    | arr xs => simp [TsConfig.as_transpile_config]
  refine ⟨hmain, ?_, ?_⟩
  · rintro ⟨e, he⟩ ⟨entries, cj, edm, j, jf, jff, heq, hl1, hl2, hl3, hl4, hl5⟩
    have hok := (hmain ⟨cj, edm, j, jf, jff⟩).mpr
      ⟨entries, heq, hl1, hl2, hl3, hl4, hl5⟩
    rw [hok] at he
    cases he
  · intro hne
    rcases hres : TsConfig.as_transpile_config ⟨val⟩ with e | t
    · exact ⟨e, rfl⟩
    · exfalso
      apply hne
      obtain ⟨entries, heq, hl1, hl2, hl3, hl4, hl5⟩ := (hmain t).mp hres
      exact ⟨entries, t.check_js, t.emit_decorator_metadata, t.jsx,
        t.jsx_factory, t.jsx_fragment_factory, heq, hl1, hl2, hl3, hl4, hl5⟩

/-- **C6.** Clean-merge scenario: starting from the base configuration
`compilerOptions: (strict: true)` and merging a user config file whose
text holds `compilerOptions: (build: true, strict: true)`, for every legal
hash iteration order the call returns the report with items `["build"]`,
and the resolved value's `compilerOptions` entry equals the single-key
object `strict: true`.  (The filtered user options are merged at the top
level of the held value, so the resolved value also gains a top-level
`strict` entry; the `compilerOptions` entry itself is the stated
single-key object.) -/
theorem clean_merge_scenario (p : ExternParams) (hp : ValidOrders p) :
    TsConfig.merge_user_config cleanMergeEnv p cleanMergeBase (some "tsconfig.json") =
      (.ok (some ⟨["build"], "/tsconfig.json"⟩),
        ⟨.obj [("compilerOptions", .obj [("strict", .bool true)]),
          ("strict", .bool true)]⟩) ∧
    lookupV "compilerOptions"
        [("compilerOptions", .obj [("strict", .bool true)]),
          ("strict", .bool true)] =
      some (.obj [("strict", .bool true)]) := by
  refine ⟨?_, rfl⟩
  set m : List (String × Value) :=
    [("build", Value.bool true), ("strict", Value.bool true)] with hm
  have h1 : (p.ord1 m).Perm m := hp.1 m
  have hkept : (p.ord1 m).filter
      (fun kv => !(IGNORED_COMPILER_OPTIONS.contains kv.1)) =
      [("strict", Value.bool true)] := by
    have hperm := h1.filter fun kv => !(IGNORED_COMPILER_OPTIONS.contains kv.1)
    rw [show m.filter (fun kv => !(IGNORED_COMPILER_OPTIONS.contains kv.1)) =
      [("strict", Value.bool true)] from rfl] at hperm
    exact List.perm_singleton.mp hperm
  have hitems : ((p.ord1 m).filter
      (fun kv => IGNORED_COMPILER_OPTIONS.contains kv.1)).map Prod.fst =
      ["build"] := by
    have hperm := (h1.filter fun kv => IGNORED_COMPILER_OPTIONS.contains kv.1).map
      Prod.fst
    rw [show (m.filter (fun kv => IGNORED_COMPILER_OPTIONS.contains kv.1)).map
      Prod.fst = ["build"] from rfl] at hperm
    exact List.perm_singleton.mp hperm
  have hord2 : p.ord2 [("strict", Value.bool true)] = [("strict", Value.bool true)] :=
    List.perm_singleton.mp (hp.2 _)
  have hfl : filterLoop (p.ord1 m) = ([("strict", Value.bool true)], ["build"]) := by
    rw [filterLoop_eq, hkept, hitems]
  have hpc : parse_config p cleanMergeText (Except.ok (some cleanMergeJsonc))
      "/tsconfig.json" =
      RunResult.ok (.obj [("strict", Value.bool true)],
        some ⟨["build"], "/tsconfig.json"⟩) := by
    have hpc1 : parse_config p cleanMergeText (Except.ok (some cleanMergeJsonc))
        "/tsconfig.json" =
        (match filterLoop (p.ord1 m) with
          | (kept, items) =>
              RunResult.ok (.obj (p.ord2 kept),
                mkIgnoredOptions items "/tsconfig.json")) := rfl
    rw [hpc1, hfl]
    show RunResult.ok (Value.obj (p.ord2 [("strict", Value.bool true)]),
      mkIgnoredOptions ["build"] "/tsconfig.json") = _
    rw [hord2]
    rfl
  simp only [TsConfig.merge_user_config, cleanMergeEnv]
  rw [hpc]
  rfl

/-- Witness for C6 at the identity hash orders. -/
theorem clean_merge_scenario_witness :
    ValidOrders idParams ∧
    TsConfig.merge_user_config cleanMergeEnv idParams cleanMergeBase
        (some "tsconfig.json") =
      (.ok (some ⟨["build"], "/tsconfig.json"⟩),
        ⟨.obj [("compilerOptions", .obj [("strict", .bool true)]),
          ("strict", .bool true)]⟩) :=
  ⟨⟨fun l => List.Perm.refl l, fun l => List.Perm.refl l⟩,
    (clean_merge_scenario idParams
      ⟨fun l => List.Perm.refl l, fun l => List.Perm.refl l⟩).1⟩

theorem keys_objInsert (k : String) (v : Value) (l : List (String × Value)) :
    (objInsert k v l).map Prod.fst =
      if k ∈ l.map Prod.fst then l.map Prod.fst else l.map Prod.fst ++ [k] := by
  induction l with
  | nil => simp [objInsert]
  | cons hd tl ih =>
      obtain ⟨k', v'⟩ := hd
      by_cases hk : k' = k
      · subst hk
        simp [objInsert]
      · simp only [objInsert, if_neg hk, List.map_cons, ih]
        by_cases hmem : k ∈ tl.map Prod.fst
        · simp [hmem, Ne.symm hk]
        · simp [hmem, Ne.symm hk, hk]

/-- **C7, counterexample.** Insertion order is not preserved through the
filtering stage: under a legal hash iteration order (reversal is a
permutation of the map entries), `parse_config` returns the filtered
`compilerOptions` mapping with keys `beta, alpha`, not in the source
insertion order `alpha, beta`. -/
theorem order_not_preserved_counterexample :
    ValidOrders orderRevParams ∧
    parse_config orderRevParams orderDemoText (Except.ok (some orderDemoJsonc))
        "/tsconfig.json" =
      RunResult.ok (.obj [("beta", .num "2"), ("alpha", .num "1")], none) ∧
    ([("beta", Value.num "2"), ("alpha", Value.num "1")].map Prod.fst ≠
      ["alpha", "beta"]) := by
  refine ⟨⟨fun l => ?_, fun l => ?_⟩, rfl, by simp⟩
  · exact List.Perm.refl l
  · exact List.reverse_perm l

theorem jsoncObjToSerde_keys (numOk : String → Bool) :
    ∀ (src : List (String × JsonValue)) (acc out : List (String × Value)),
      (acc.map Prod.fst ++ src.map Prod.fst).Nodup →
      jsoncObjToSerde numOk acc src = Except.ok out →
      out.map Prod.fst = acc.map Prod.fst ++ src.map Prod.fst := by
  intro src
  induction src with
  | nil =>
      intro acc out hnd hok
      simp only [jsoncObjToSerde] at hok
      cases hok
      simp
  | cons hd tl ih =>
      intro acc out hnd hok
      obtain ⟨k, j⟩ := hd
      simp only [List.map_cons] at hnd
      simp only [jsoncObjToSerde] at hok
      rcases hj : jsonc_to_serde numOk j with e | v
      · rw [hj] at hok
        cases hok
      · rw [hj] at hok
        simp only [except_ok_bind] at hok
        have hknot : k ∉ acc.map Prod.fst := by
          intro hmem
          rw [List.nodup_append] at hnd
          exact hnd.2.2 hmem (List.mem_cons_self _ _)
        have hins : (objInsert k v acc).map Prod.fst = acc.map Prod.fst ++ [k] := by
          rw [keys_objInsert, if_neg hknot]
        have hnd' : ((objInsert k v acc).map Prod.fst ++ tl.map Prod.fst).Nodup := by
          rw [hins, List.append_assoc, List.singleton_append]
          exact hnd
        have hout := ih (objInsert k v acc) out hnd' hok
        rw [hout, hins, List.append_assoc, List.singleton_append, List.map_cons]

/-- **C7, amended.** Serializing a `TsConfig` yields exactly the held
value, so the serialized form carries the held object's keys in their
stored insertion order; conversion from the parser tree preserves the
source object's key order; and the deep merge keeps `into`'s existing keys
in place and appends `from`'s new keys in `from`'s order.  (The filtering
stage of `parse_config` does not preserve the user file's insertion
order — the `compilerOptions` entries pass through unordered hash maps —
which is the one correction to the claim.) -/
theorem order_preservation_amended :
    (∀ cfg : TsConfig, cfg.serialize = cfg.val) ∧
    (∀ numOk e out, ((e.map Prod.fst).Nodup) →
      jsonc_to_serde numOk (.object e) = Except.ok out →
      ∃ l, out = Value.obj l ∧ l.map Prod.fst = e.map Prod.fst) ∧
    (∀ a b, ((b.map Prod.fst).Nodup) →
      (mergeEntries a b).map Prod.fst =
        a.map Prod.fst ++
          (b.map Prod.fst).filter (fun k => !((a.map Prod.fst).contains k))) := by
  refine ⟨fun _ => rfl, ?_, ?_⟩
  · intro numOk e out hnd hok
    simp only [jsonc_to_serde] at hok
    rcases hconv : jsoncObjToSerde numOk [] e with er | l
    · rw [hconv] at hok
      cases hok
    · rw [hconv] at hok
      simp only [except_ok_bind] at hok
      cases hok
      refine ⟨l, rfl, ?_⟩
      have := jsoncObjToSerde_keys numOk e [] l (by simpa using hnd) hconv
      simpa using this
  · intro a b
    induction b generalizing a with
    | nil =>
        intro hnd
        simp [mergeEntries]
    | cons hd tl ih =>
        intro hnd
        obtain ⟨k, v⟩ := hd
        simp only [List.map_cons, List.nodup_cons] at hnd
        simp only [mergeEntries, List.map_cons, List.filter_cons]
        rw [ih _ hnd.2, keys_objInsert]
        by_cases hmem : k ∈ a.map Prod.fst
        · rw [if_pos hmem]
          have hc : (a.map Prod.fst).contains k = true := by
            simpa using hmem
          have hcond : (!(a.map Prod.fst).contains k) = false := by
            rw [hc]
            rfl
          rw [hcond]
          simp
        · rw [if_neg hmem]
          have hc : (a.map Prod.fst).contains k = false := by
            simpa using hmem
          simp only [hc, Bool.not_false, if_true]
          rw [List.append_assoc, List.singleton_append]
          congr 2
          apply List.filter_congr
          intro x hx
          have hxk : x ≠ k := by
            rintro rfl
            exact hnd.1 hx
          simp [List.mem_append, hxk]

theorem bind_ok_inv {α β : Type} {x : Except String α} {f : α → Except String β}
    {b : β} (h : (x >>= f) = Except.ok b) : ∃ a, x = Except.ok a ∧ f a = Except.ok b := by
  rcases x with e | a
  · rw [except_error_bind] at h
    cases h
  · rw [except_ok_bind] at h
    exact ⟨a, rfl, h⟩

theorem deserialize_co {e : List (String × Value)} {c : TSConfigJson}
    (h : deserializeTSConfigJson (Value.obj e) = Except.ok c) :
    parseOptField "compilerOptions" e parseOptionsMap =
      Except.ok c.compiler_options := by
  simp only [deserializeTSConfigJson] at h
  obtain ⟨co, h1, h⟩ := bind_ok_inv h
  obtain ⟨ex, h2, h⟩ := bind_ok_inv h
  obtain ⟨et, h3, h⟩ := bind_ok_inv h
  obtain ⟨fi, h4, h⟩ := bind_ok_inv h
  obtain ⟨inc, h5, h⟩ := bind_ok_inv h
  obtain ⟨re, h6, h⟩ := bind_ok_inv h
  obtain ⟨ta, h7, h⟩ := bind_ok_inv h
  cases h
  exact h1

/-- **C9.** For a user config file that parses and deserializes
successfully, the value `parse_config` returns holds exactly the
non-ignored `compilerOptions` entries (up to the unspecified hash
iteration order); the other top-level fields are discarded — the
deserialized `compilerOptions` component depends only on the
`compilerOptions` key — and an unrecognized top-level key is accepted
without error and changes nothing. -/
theorem parse_config_projection_spec :
    (∀ p text jsonc path sv cfgJson, ValidOrders p → text ≠ "" →
      jsonc_to_serde p.numOk jsonc = Except.ok sv →
      deserializeTSConfigJson sv = Except.ok cfgJson →
      ∃ l rep, parse_config p text (Except.ok (some jsonc)) path =
          RunResult.ok (Value.obj l, rep) ∧
        l.Perm ((cfgJson.compiler_options.getD []).filter
          (fun kv => !(IGNORED_COMPILER_OPTIONS.contains kv.1)))) ∧
    (∀ e1 e2 c1 c2, deserializeTSConfigJson (Value.obj e1) = Except.ok c1 →
      deserializeTSConfigJson (Value.obj e2) = Except.ok c2 →
      lookupV "compilerOptions" e1 = lookupV "compilerOptions" e2 →
      c1.compiler_options = c2.compiler_options) ∧
    (∀ e c k w, deserializeTSConfigJson (Value.obj e) = Except.ok c →
      k ∉ ["compilerOptions", "exclude", "extends", "files", "include",
        "references", "typeAcquisition"] →
      deserializeTSConfigJson (Value.obj ((k, w) :: e)) = Except.ok c) := by
  refine ⟨?_, ?_, ?_⟩
  · intro p text jsonc path sv cfgJson hp ht hjs hdes
    rcases hco : cfgJson.compiler_options with _ | m
    · refine ⟨p.ord2 [], mkIgnoredOptions [] path, ?_, ?_⟩
      · simp [parse_config, ht, hjs, hdes, hco]
      · simpa using hp.2 []
    · refine ⟨p.ord2 ((p.ord1 m).filter
          fun kv => !(IGNORED_COMPILER_OPTIONS.contains kv.1)),
        mkIgnoredOptions (((p.ord1 m).filter
          fun kv => IGNORED_COMPILER_OPTIONS.contains kv.1).map Prod.fst) path,
        ?_, ?_⟩
      · simp [parse_config, ht, hjs, hdes, hco, filterLoop_eq]
      · simp only [Option.getD_some]
        exact (hp.2 _).trans ((hp.1 m).filter _)
  · intro e1 e2 c1 c2 h1 h2 hlk
    have d1 := deserialize_co h1
    have d2 := deserialize_co h2
    have heq : parseOptField "compilerOptions" e1 parseOptionsMap =
        parseOptField "compilerOptions" e2 parseOptionsMap := by
      unfold parseOptField
      rw [hlk]
    rw [heq, d2] at d1
    injection d1 with d1'
    exact d1'.symm
  · intro e c k w hok hknot
    simp only [List.mem_cons, List.not_mem_nil, or_false] at hknot
    push_neg at hknot
    obtain ⟨n1, n2, n3, n4, n5, n6, n7⟩ := hknot
    have heq : deserializeTSConfigJson (Value.obj ((k, w) :: e)) =
        deserializeTSConfigJson (Value.obj e) := by
      simp [deserializeTSConfigJson, parseOptField, lookupV,
        n1, n2, n3, n4, n5, n6, n7]
    rw [heq]
    exact hok

end TscConfig
